import Mathlib

/-!
# ConditionalGaussian (gtsam): a shallow embedding

The node of a Gaussian Bayes network from `ConditionalGaussian.h` and
`ConditionalGaussian.cpp`: constructors, `add`, `parents`, `nrParents`,
`contains`, `dim`, `equals`, `solve` and the serialization function.

Conventions of the embedding.

* `double` is modelled by exact rational arithmetic (`ℚ`).
* `std::string` is modelled by `String`; a string may hold the character with
  code 0, as a `std::string` may.  `c_str` followed by the implicit conversion
  back to `std::string` keeps the characters before the first such character.
* `std::map<std::string, Matrix>` is modelled by a list of entries whose keys
  are strictly ascending; `insert` keeps an entry that is already present and
  `find` looks a key up.
* The collaborators whose code lives in other files (`Conditional`, `Matrix`,
  `Vector`, `VectorConfig`, `backsubstitution`, `equal_with_abs_tol`) are
  modelled from the specification; each such definition says so.
-/

namespace gtsam

/-- Keys of variables: `std::string`. -/
abbrev Key := String

/-- Modelled from the spec: the numeric vector type `Vector` (Matrix.h / Vector.h are
not part of the sources); a finite sequence of scalars. -/
abbrev Vector := List ℚ

/-- Modelled from the spec: the dense matrix type `Matrix` (Matrix.h is not part of the
sources): `size1` rows of `size2` scalars each. -/
structure Matrix where
  size2 : Nat
  rows : List (List ℚ)
  rect : ∀ r ∈ rows, r.length = size2
deriving DecidableEq

/-- Number of rows of a matrix. -/
def Matrix.size1 (A : Matrix) : Nat := A.rows.length

/-- Entry `A(i,j)`; 0 outside the matrix. -/
def Matrix.get (A : Matrix) (i j : Nat) : ℚ := (A.rows.getD i []).getD j 0

/-- The errors the specification names for `solve`. -/
inductive Error where
  | missingParentValue
  | singularSystem
deriving DecidableEq, Repr

deriving instance DecidableEq for Except

/-- Modelled from the spec: inner product of a matrix row with a vector (the kernel of the
matrix-vector product of the numeric library). On sequences of different length the
common prefix is used. -/
def dot : List ℚ → List ℚ → ℚ
  | a :: as, b :: bs => a * b + dot as bs
  | _, _ => 0

/-- Modelled from the spec: the matrix-vector product `A * v` of the numeric library. -/
def Matrix.mulVec (A : Matrix) (v : Vector) : Vector := A.rows.map (fun r => dot r v)

/-- Modelled from the spec: the in-place vector subtraction `rhs -= v` of the numeric
library; the result has the length of `rhs`. -/
def vsub : Vector → Vector → Vector
  | a :: as, b :: bs => (a - b) :: vsub as bs
  | as, [] => as
  | [], _ => []

/-- Modelled from the spec: `equal_with_abs_tol` on vectors (Vector.h is not part of the
sources), the element-wise tolerance-equality primitive: same length and every pair of
entries within `tol` of each other. -/
def Vector.equal_with_abs_tol : Vector → Vector → ℚ → Bool
  | [], [], _ => true
  | a :: as, b :: bs, tol => decide (|a - b| ≤ tol) && Vector.equal_with_abs_tol as bs tol
  | _, _, _ => false

/-- Row-wise tolerance-equality of two lists of rows. -/
def rows_equal_with_abs_tol : List (List ℚ) → List (List ℚ) → ℚ → Bool
  | [], [], _ => true
  | r :: rs, s :: ss, tol => Vector.equal_with_abs_tol r s tol && rows_equal_with_abs_tol rs ss tol
  | _, _, _ => false

/-- Modelled from the spec: `equal_with_abs_tol` on matrices (Matrix.h is not part of the
sources), the element-wise tolerance-equality primitive: same dimensions and every pair
of entries within `tol` of each other. -/
def Matrix.equal_with_abs_tol (A B : Matrix) (tol : ℚ) : Bool :=
  A.size1 == B.size1 && A.size2 == B.size2 && rows_equal_with_abs_tol A.rows B.rows tol

/-- Back-substitution on the rows `i, i+1, ...` of the system: the later rows are solved
first, then `x(i) = (b(i) - Σ_{j>i} R(i,j)·x(j)) / R(i,i)`. -/
def backsubstitutionFrom (i : Nat) : List (List ℚ) → Vector → Except Error Vector
  | [], _ => .ok []
  | row :: rest, b =>
    match backsubstitutionFrom (i + 1) rest b.tail with
    | .error e => .error e
    | .ok xs =>
      if row.getD i 0 = 0 then .error .singularSystem
      else .ok ((b.headD 0 - dot (row.drop (i + 1)) xs) / row.getD i 0 :: xs)

/-- Modelled from the spec: `backsubstitution(R, rhs)` (Matrix.cpp is not part of the
sources), the triangular solve kernel: it solves `R·x = rhs` by successive substitution
from the last row to the first and fails with `SingularSystem` on a zero pivot (over exact
arithmetic the pivot tolerance is 0). -/
def backsubstitution (R : Matrix) (b : Vector) : Except Error Vector :=
  backsubstitutionFrom 0 R.rows b

/-- Modelled from the spec: `VectorConfig` (VectorConfig.h is not part of the sources), the
assignment of a numeric vector to some variable names. -/
abbrev VectorConfig := Key → Option Vector

/-- Modelled from the spec: `VectorConfig::operator[]`, the lookup by key, which fails with
the missing-value error when the key is absent. -/
def VectorConfig.at (x : VectorConfig) (j : Key) : Except Error Vector :=
  match x j with
  | some v => .ok v
  | none => .error .missingParentValue

/-- The assignment that holds no value. -/
def VectorConfig.empty : VectorConfig := fun _ => none

/-- The assignment `{y: v}`. -/
def VectorConfig.single (y : Key) (v : Vector) : VectorConfig :=
  fun k => if k = y then some v else none

/-- The conversion `std::string → const char* → std::string` done by `s.c_str()` where a
`std::string` is expected: the characters before the first character of code 0. -/
def c_str (s : Key) : Key := ⟨s.data.takeWhile (fun c => c ≠ Char.ofNat 0)⟩

/-- Insertion into the entries of a `std::map`: the entry goes to its place in key order,
and nothing changes when the key is already present. -/
def insertEntry (k : Key) (v : Matrix) : List (Key × Matrix) → List (Key × Matrix)
  | [] => [(k, v)]
  | (k', v') :: rest =>
    if k < k' then (k, v) :: (k', v') :: rest
    else if k = k' then (k', v') :: rest
    else (k', v') :: insertEntry k v rest

/-- Lookup of a key among the entries of a `std::map`. -/
def findEntry (k : Key) : List (Key × Matrix) → Option Matrix
  | [] => none
  | (k', v') :: rest => if k = k' then some v' else findEntry k rest

/-- The type `Parents = std::map<std::string, Matrix>`: entries in strictly ascending key
order. -/
structure Parents where
  entries : List (Key × Matrix)
  sorted : entries.Pairwise (fun p q => p.1 < q.1)
deriving DecidableEq

/-- The empty map. -/
def Parents.empty : Parents := ⟨[], List.Pairwise.nil⟩

/-- The method `std::map::insert(make_pair(k, v))`. -/
def Parents.insert (m : Parents) (k : Key) (v : Matrix) : Parents :=
  ⟨insertEntry k v m.entries, by
    have mem : ∀ (l : List (Key × Matrix)) (q : Key × Matrix),
        q ∈ insertEntry k v l → q = (k, v) ∨ q ∈ l := by
      intro l
      induction l with
      | nil => intro q hq; simpa [insertEntry] using hq
      | cons hd tl ih =>
        intro q hq
        obtain ⟨k', v'⟩ := hd
        simp only [insertEntry] at hq
        split_ifs at hq with h1 h2
        · simpa using hq
        · exact Or.inr hq
        · rcases List.mem_cons.mp hq with h | h
          · exact Or.inr (h ▸ List.mem_cons_self _ _)
          · rcases ih q h with h | h
            · exact Or.inl h
            · exact Or.inr (List.mem_cons_of_mem _ h)
    have key : ∀ l : List (Key × Matrix), l.Pairwise (fun p q => p.1 < q.1) →
        (insertEntry k v l).Pairwise (fun p q => p.1 < q.1) := by
      intro l
      induction l with
      | nil => intro _; simp [insertEntry]
      | cons hd tl ih =>
        intro hs
        obtain ⟨k', v'⟩ := hd
        rw [List.pairwise_cons] at hs
        simp only [insertEntry]
        split_ifs with h1 h2
        · refine List.Pairwise.cons ?_ (List.Pairwise.cons hs.1 hs.2)
          intro q hq
          rcases List.mem_cons.mp hq with h | h
          · rw [h]; exact h1
          · exact lt_trans h1 (hs.1 q h)
        · exact List.Pairwise.cons hs.1 hs.2
        · refine List.Pairwise.cons ?_ (ih hs.2)
          intro q hq
          rcases mem tl q hq with h | h
          · rw [h]
            exact lt_of_le_of_ne (not_lt.mp h1) (fun e => h2 e.symm)
          · exact hs.1 q h
    exact key m.entries m.sorted⟩

/-- The method `std::map::find`, as the matrix found, if any. -/
def Parents.find (m : Parents) (k : Key) : Option Matrix := findEntry k m.entries

/-- The method `std::map::size`. -/
def Parents.size (m : Parents) : Nat := m.entries.length

/-- The method `std::map::count`: the number of entries with the key. -/
def Parents.count (m : Parents) (k : Key) : Nat := (m.entries.filter (fun p => p.1 = k)).length

/-- Modelled from the spec: the base class `Conditional` (Conditional.h is not part of the
sources), the base identity that supplies the key. -/
structure Conditional where
  key_ : Key
deriving DecidableEq

/-- Modelled from the spec: `Conditional::equals`, the base-level equality check: both
share the same key. -/
def Conditional.equals (a c : Conditional) : Bool := a.key_ == c.key_

/-- The class `ConditionalGaussian`: the base identity and the fields `R_`, `parents_`,
`precisions_`, `d_`. -/
structure ConditionalGaussian extends Conditional where
  R_ : Matrix
  parents_ : Parents
  precisions_ : Vector
  d_ : Vector
deriving DecidableEq

/-- An object referred to through `const Conditional&`: a `ConditionalGaussian`, or an
object of another class derived from `Conditional`, of which only the base part is seen. -/
inductive ConditionalRef where
  | gaussian (g : ConditionalGaussian)
  | other (c : Conditional)

/-- The base part of the object referred to. -/
def ConditionalRef.base : ConditionalRef → Conditional
  | .gaussian g => g.toConditional
  | .other c => c

/-- The cast `dynamic_cast<const ConditionalGaussian*>(&c)`; `none` is the null pointer. -/
def dynamic_cast : ConditionalRef → Option ConditionalGaussian
  | .gaussian g => some g
  | .other _ => none

namespace ConditionalGaussian

/-- The 0×0 matrix a default-constructed `Matrix` is. -/
def emptyMatrix : Matrix := ⟨0, [], by simp⟩

/-- Default constructor, "needed for serialization". -/
def default : ConditionalGaussian :=
  { key_ := "__unitialized__", R_ := emptyMatrix, parents_ := Parents.empty,
    precisions_ := [], d_ := [] }

/-- Constructor with no parents. -/
def mk0 (key : Key) (d : Vector) (R : Matrix) (precisions : Vector) : ConditionalGaussian :=
  { key_ := key, R_ := R, parents_ := Parents.empty, precisions_ := precisions, d_ := d }

/-- Constructor with only one parent. -/
def mk1 (key : Key) (d : Vector) (R : Matrix) (name1 : Key) (S : Matrix)
    (precisions : Vector) : ConditionalGaussian :=
  { key_ := key, R_ := R, parents_ := Parents.empty.insert name1 S,
    precisions_ := precisions, d_ := d }

/-- Constructor with two parents. -/
def mk2 (key : Key) (d : Vector) (R : Matrix) (name1 : Key) (S : Matrix)
    (name2 : Key) (T : Matrix) (precisions : Vector) : ConditionalGaussian :=
  { key_ := key, R_ := R, parents_ := (Parents.empty.insert name1 S).insert name2 T,
    precisions_ := precisions, d_ := d }

/-- Constructor with a number of arbitrary parents. -/
def mkN (key : Key) (d : Vector) (R : Matrix) (parents : Parents)
    (precisions : Vector) : ConditionalGaussian :=
  { key_ := key, R_ := R, parents_ := parents, precisions_ := precisions, d_ := d }

/-- The loop of `equals` over the entries of `parents_`: each key, passed through
`c_str()`, is looked up in the parents of `p`. -/
def equalsLoop (p : ConditionalGaussian) (tol : ℚ) : List (Key × Matrix) → Bool
  | [] => true
  | it :: rest =>
    match p.parents_.find (c_str it.1) with
    | some m2 =>
      if !(Matrix.equal_with_abs_tol it.2 m2 tol) then false else equalsLoop p tol rest
    | none => false

/-- The method `equals(c, tol)`. -/
def equals (a : ConditionalGaussian) (c : ConditionalRef) (tol : ℚ) : Bool :=
  if !(a.toConditional.equals c.base) then false
  else match dynamic_cast c with
    | none => false
    | some p =>
      if a.parents_.size != p.parents_.size then false
      else if !(Matrix.equal_with_abs_tol a.R_ p.R_ tol) then false
      else if !(Vector.equal_with_abs_tol a.d_ p.d_ tol) then false
      else if !(Vector.equal_with_abs_tol a.precisions_ p.precisions_ tol) then false
      else equalsLoop p tol a.parents_.entries

/-- The method `dim()`: `R_.size2()`. -/
def dim (a : ConditionalGaussian) : Nat := a.R_.size2

/-- The method `parents()`: the keys of the parents, in the order of the map. -/
def parents (a : ConditionalGaussian) : List Key := a.parents_.entries.map Prod.fst

/-- The method `nrParents()`. -/
def nrParents (a : ConditionalGaussian) : Nat := a.parents_.size

/-- The method `contains(key)`. -/
def contains (a : ConditionalGaussian) (key : Key) : Nat := a.parents_.count key

/-- The method `add(key, S)`. -/
def add (a : ConditionalGaussian) (key : Key) (S : Matrix) : ConditionalGaussian :=
  { a with parents_ := a.parents_.insert key S }

/-- The loop of `solve`: `rhs -= Aj * x[j]` for each entry `(j, Aj)` of `parents_`. -/
def solveLoop (x : VectorConfig) : List (Key × Matrix) → Vector → Except Error Vector
  | [], rhs => .ok rhs
  | (j, Aj) :: rest, rhs =>
    match x.at j with
    | .error e => .error e
    | .ok xj => solveLoop x rest (vsub rhs (Aj.mulVec xj))

/-- The method `solve(x)`. -/
def solve (a : ConditionalGaussian) (x : VectorConfig) : Except Error Vector :=
  match solveLoop x a.parents_.entries a.d_ with
  | .error e => .error e
  | .ok rhs => backsubstitution a.R_ rhs

/-- What `serialize` writes and reads: `R_`, `d_`, `precisions_`, `parents_`. -/
structure Archive where
  R_ : Matrix
  d_ : Vector
  precisions_ : Vector
  parents_ : Parents
deriving DecidableEq

/-- Saving a node through `serialize`. -/
def serialize (a : ConditionalGaussian) : Archive :=
  { R_ := a.R_, d_ := a.d_, precisions_ := a.precisions_, parents_ := a.parents_ }

/-- Loading a node: it is default-constructed, then `serialize` reads the fields. -/
def deserialize (ar : Archive) : ConditionalGaussian :=
  { default with R_ := ar.R_, d_ := ar.d_, precisions_ := ar.precisions_,
                 parents_ := ar.parents_ }

end ConditionalGaussian

/-- A sequence of `add` calls, applied from the left: `adds` lists the arguments
`(key, S)` of the calls in the order they are made. -/
def ConditionalGaussian.addAll (a : ConditionalGaussian) (adds : List (Key × Matrix)) :
    ConditionalGaussian :=
  adds.foldl (fun n p => n.add p.1 p.2) a

/-! ## Changing one entry -/

/-- The vector `v'` is the vector `v` with the entry `i0` changed by `δ`. -/
def Vector.changedAt (v v' : Vector) (i0 : Nat) (δ : ℚ) : Prop :=
  v'.length = v.length ∧ i0 < v.length ∧ v'.getD i0 0 = v.getD i0 0 + δ
  ∧ ∀ i, i ≠ i0 → v'.getD i 0 = v.getD i 0

/-- The matrix `A'` is the matrix `A` with the entry `(i0, j0)` changed by `δ`. -/
def Matrix.changedAt (A A' : Matrix) (i0 j0 : Nat) (δ : ℚ) : Prop :=
  A'.size1 = A.size1 ∧ A'.size2 = A.size2 ∧ i0 < A.size1 ∧ j0 < A.size2
  ∧ A'.get i0 j0 = A.get i0 j0 + δ
  ∧ ∀ i j, (i ≠ i0 ∨ j ≠ j0) → A'.get i j = A.get i j

/-- The node `a'` is the node `a` except that exactly one entry of `R`, of `d`, of
`precisions` or of one parent matrix is changed by `δ`. -/
inductive SingleEntryChanged (a a' : ConditionalGaussian) (δ : ℚ) : Prop where
  | inR (i j : Nat) (hkey : a'.key_ = a.key_) (hR : a.R_.changedAt a'.R_ i j δ)
      (hd : a'.d_ = a.d_) (hprec : a'.precisions_ = a.precisions_)
      (hpar : a'.parents_ = a.parents_) : SingleEntryChanged a a' δ
  | inD (i : Nat) (hkey : a'.key_ = a.key_) (hR : a'.R_ = a.R_)
      (hd : Vector.changedAt a.d_ a'.d_ i δ) (hprec : a'.precisions_ = a.precisions_)
      (hpar : a'.parents_ = a.parents_) : SingleEntryChanged a a' δ
  | inPrecisions (i : Nat) (hkey : a'.key_ = a.key_) (hR : a'.R_ = a.R_)
      (hd : a'.d_ = a.d_) (hprec : Vector.changedAt a.precisions_ a'.precisions_ i δ)
      (hpar : a'.parents_ = a.parents_) : SingleEntryChanged a a' δ
  | inParent (k : Key) (M M' : Matrix) (i j : Nat) (hkey : a'.key_ = a.key_)
      (hR : a'.R_ = a.R_) (hd : a'.d_ = a.d_) (hprec : a'.precisions_ = a.precisions_)
      (hM : a.parents_.find k = some M) (hM' : a'.parents_.find k = some M')
      (hch : M.changedAt M' i j δ)
      (hrest : ∀ k', k' ≠ k → a'.parents_.find k' = a.parents_.find k') :
      SingleEntryChanged a a' δ

/-! ## Concrete data used in the examples -/

/-- The matrix `[[1,0],[0,1]]`. -/
def I2 : Matrix := ⟨2, [[1, 0], [0, 1]], by decide⟩

/-- The 1×2 matrix `[[1,2]]`, which is not square. -/
def rowMatrix : Matrix := ⟨2, [[1, 2]], by decide⟩

/-- The matrix `[[2,0],[0,2]]`. -/
def twoI2 : Matrix := ⟨2, [[2, 0], [0, 2]], by decide⟩

/-- The 1×1 matrix `[[c]]`. -/
def scalarMatrix (c : ℚ) : Matrix := ⟨1, [[c]], by simp⟩

/-- A parent key with a character of code 0 in it: the three characters `a`, NUL, `b`. -/
def nulKey : Key := ⟨['a', Char.ofNat 0, 'b']⟩

/-- A node whose only parent has the key `nulKey`. -/
def nulNode : ConditionalGaussian :=
  ConditionalGaussian.mk1 "x" [1] (scalarMatrix 1) nulKey (scalarMatrix 1) [1]

/-! ## Lemmas on the map of parents -/

theorem findEntry_of_lt (k : Key) (l : List (Key × Matrix))
    (h : ∀ q ∈ l, k < q.1) : findEntry k l = none := by
  induction l with
  | nil => rfl
  | cons hd tl ih =>
    obtain ⟨k', v'⟩ := hd
    have h1 : k < k' := h (k', v') (List.mem_cons_self _ _)
    simp only [findEntry, if_neg (ne_of_lt h1)]
    exact ih (fun q hq => h q (List.mem_cons_of_mem _ hq))

theorem findEntry_insertEntry (k : Key) (v : Matrix) (j : Key) (l : List (Key × Matrix))
    (hs : l.Pairwise (fun p q => p.1 < q.1)) :
    findEntry j (insertEntry k v l)
      = if j = k then some ((findEntry k l).getD v) else findEntry j l := by
  induction l with
  | nil => simp [insertEntry, findEntry]
  | cons hd tl ih =>
    obtain ⟨k', v'⟩ := hd
    rw [List.pairwise_cons] at hs
    by_cases h1 : k < k'
    · simp only [insertEntry, if_pos h1]
      have hk : findEntry k ((k', v') :: tl) = none :=
        findEntry_of_lt k _ (by
          intro q hq
          rcases List.mem_cons.mp hq with h | h
          · rw [h]; exact h1
          · exact lt_trans h1 (hs.1 q h))
      by_cases h3 : j = k
      · subst h3
        rw [if_pos rfl, hk]
        simp [findEntry]
      · rw [if_neg h3]
        conv_lhs => rw [findEntry]
        rw [if_neg h3]
    · by_cases h2 : k = k'
      · subst h2
        simp only [insertEntry, if_neg h1, if_true]
        by_cases h3 : j = k
        · subst h3; simp [findEntry]
        · rw [if_neg h3]
      · simp only [insertEntry, if_neg h1, if_neg h2]
        by_cases h3 : j = k
        · subst h3
          simp only [findEntry, if_neg h2, if_true]
          rw [ih hs.2]; simp
        · rw [if_neg h3]
          by_cases h4 : j = k'
          · simp [findEntry, h4]
          · simp only [findEntry, if_neg h4]
            rw [ih hs.2, if_neg h3]

theorem Parents.find_insert (m : Parents) (k : Key) (v : Matrix) (j : Key) :
    (m.insert k v).find j = if j = k then some ((m.find k).getD v) else m.find j :=
  findEntry_insertEntry k v j m.entries m.sorted

theorem filter_key_of_lt (k : Key) (l : List (Key × Matrix))
    (h : ∀ q ∈ l, k < q.1) : l.filter (fun p => p.1 = k) = [] := by
  rw [List.filter_eq_nil_iff]
  intro q hq
  have := h q hq
  simpa using (ne_of_gt this)

theorem count_insertEntry (k : Key) (v : Matrix) (l : List (Key × Matrix))
    (hs : l.Pairwise (fun p q => p.1 < q.1)) :
    ((insertEntry k v l).filter (fun p => p.1 = k)).length = 1 := by
  induction l with
  | nil => simp [insertEntry]
  | cons hd tl ih =>
    obtain ⟨k', v'⟩ := hd
    rw [List.pairwise_cons] at hs
    simp only [insertEntry]
    split_ifs with h1 h2
    · have : ((k', v') :: tl).filter (fun p => p.1 = k) = [] :=
        filter_key_of_lt k _ (by
          intro q hq
          rcases List.mem_cons.mp hq with h | h
          · rw [h]; exact h1
          · exact lt_trans h1 (hs.1 q h))
      rw [List.filter_cons_of_pos (by simp), this]; rfl
    · subst h2
      rw [List.filter_cons_of_pos (by simp), filter_key_of_lt k tl hs.1]; rfl
    · rw [List.filter_cons_of_neg (by simpa using fun e : k' = k => h2 e.symm)]
      exact ih hs.2

theorem Parents.count_insert (m : Parents) (k : Key) (v : Matrix) :
    (m.insert k v).count k = 1 :=
  count_insertEntry k v m.entries m.sorted

/-! ## Lemmas on `solve` -/

theorem backsubstitutionFrom_error (rows : List (List ℚ)) :
    ∀ (i : Nat) (b : Vector) (e : Error),
      backsubstitutionFrom i rows b = .error e → e = .singularSystem := by
  induction rows with
  | nil => intro i b e h; simp [backsubstitutionFrom] at h
  | cons row rest ih =>
    intro i b e h
    simp only [backsubstitutionFrom] at h
    cases hrec : backsubstitutionFrom (i + 1) rest b.tail with
    | error e' =>
      rw [hrec] at h
      have := ih (i + 1) b.tail e' hrec
      simp only [Except.error.injEq] at h
      rw [← h]; exact this
    | ok xs =>
      rw [hrec] at h
      simp only at h
      split_ifs at h
      simp only [Except.error.injEq] at h
      exact h.symm

theorem solveLoop_missing (x : VectorConfig) (l : List (Key × Matrix)) :
    ∀ rhs : Vector, (∃ p ∈ l, x p.1 = none) →
      ConditionalGaussian.solveLoop x l rhs = .error .missingParentValue := by
  induction l with
  | nil => intro rhs h; simp at h
  | cons hd tl ih =>
    intro rhs h
    obtain ⟨j, Aj⟩ := hd
    cases hx : x j with
    | none => simp [ConditionalGaussian.solveLoop, VectorConfig.at, hx]
    | some v =>
      simp only [ConditionalGaussian.solveLoop, VectorConfig.at, hx]
      apply ih
      obtain ⟨p, hp, hnone⟩ := h
      rcases List.mem_cons.mp hp with h1 | h1
      · rw [h1] at hnone; simp [hx] at hnone
      · exact ⟨p, h1, hnone⟩

theorem solveLoop_ok (x : VectorConfig) (l : List (Key × Matrix)) :
    ∀ rhs : Vector, (∀ p ∈ l, x p.1 ≠ none) →
      ∃ r, ConditionalGaussian.solveLoop x l rhs = .ok r := by
  induction l with
  | nil => intro rhs _; exact ⟨rhs, rfl⟩
  | cons hd tl ih =>
    intro rhs h
    obtain ⟨j, Aj⟩ := hd
    cases hx : x j with
    | none => exact absurd hx (h (j, Aj) (List.mem_cons_self _ _))
    | some v =>
      simp only [ConditionalGaussian.solveLoop, VectorConfig.at, hx]
      exact ih _ (fun p hp => h p (List.mem_cons_of_mem _ hp))

theorem vsub_length (a : Vector) : ∀ b : Vector, (vsub a b).length = a.length := by
  induction a with
  | nil => intro b; cases b <;> rfl
  | cons hd tl ih =>
    intro b
    cases b with
    | nil => rfl
    | cons hb tb => simp [vsub, ih]

theorem vsub_getD (a : Vector) : ∀ (b : Vector) (i : Nat), a.length = b.length →
    (vsub a b).getD i 0 = a.getD i 0 - b.getD i 0 := by
  induction a with
  | nil =>
    intro b i h
    cases b with
    | nil => simp [vsub]
    | cons hb tb => simp at h
  | cons hd tl ih =>
    intro b i h
    cases b with
    | nil => simp at h
    | cons hb tb =>
      cases i with
      | zero => simp [vsub]
      | succ n =>
        have := ih tb n (by simpa using h)
        simpa [vsub] using this

theorem dot_drop_cons (r : List ℚ) (i : Nat) (h : i < r.length) (x : ℚ) (xs : List ℚ) :
    dot (r.drop i) (x :: xs) = r.getD i 0 * x + dot (r.drop (i + 1)) xs := by
  rw [List.drop_eq_getElem_cons h, List.getD_eq_getElem r 0 h, dot]

/-- Correctness of back-substitution on the rows `i, i+1, ...` of a square
upper-triangular system with non-zero pivots. -/
theorem backsubstitutionFrom_spec (rows : List (List ℚ)) :
    ∀ (i : Nat) (b : Vector),
      (∀ r ∈ rows, r.length = i + rows.length) →
      (∀ m, m < rows.length → (rows.getD m []).getD (i + m) 0 ≠ 0) →
      (∀ m, m < rows.length → ∀ j, i ≤ j → j < i + m → (rows.getD m []).getD j 0 = 0) →
      b.length = rows.length →
      ∃ xs, backsubstitutionFrom i rows b = .ok xs ∧ xs.length = rows.length
        ∧ rows.map (fun r => dot (r.drop i) xs) = b := by
  induction rows with
  | nil =>
    intro i b _ _ _ hb
    exact ⟨[], rfl, rfl, by simp [List.length_eq_zero.mp hb]⟩
  | cons row rest ih =>
    intro i b hlen hpiv hup hb
    cases b with
    | nil => simp at hb
    | cons b0 bt =>
      have hlen' : ∀ r ∈ rest, r.length = (i + 1) + rest.length := by
        intro r hr
        have := hlen r (List.mem_cons_of_mem _ hr)
        simp only [List.length_cons] at this
        omega
      have hpiv' : ∀ m, m < rest.length → (rest.getD m []).getD (i + 1 + m) 0 ≠ 0 := by
        intro m hm
        have := hpiv (m + 1) (by simpa using hm)
        rw [List.getD_cons_succ] at this
        rwa [show i + 1 + m = i + (m + 1) by omega]
      have hup' : ∀ m, m < rest.length → ∀ j, i + 1 ≤ j → j < i + 1 + m →
          (rest.getD m []).getD j 0 = 0 := by
        intro m hm j h1 h2
        have := hup (m + 1) (by simpa using hm) j (by omega) (by omega)
        rwa [List.getD_cons_succ] at this
      obtain ⟨xs, hxs, hxl, hmap⟩ := ih (i + 1) bt hlen' hpiv' hup' (by simpa using hb)
      have hp : row.getD i 0 ≠ 0 := by
        have := hpiv 0 (by simp)
        simpa using this
      have hrow : i < row.length := by
        have := hlen row (List.mem_cons_self _ _)
        simp only [List.length_cons] at this
        omega
      refine ⟨(b0 - dot (row.drop (i + 1)) xs) / row.getD i 0 :: xs, ?_, ?_, ?_⟩
      · simp only [backsubstitutionFrom, List.tail_cons, hxs, if_neg hp, List.headD_cons]
      · simp [hxl]
      · rw [List.map_cons, dot_drop_cons row i hrow]
        congr 1
        · rw [mul_div_cancel₀ _ hp]; ring
        · rw [← hmap]
          apply List.map_congr_left
          intro r hr
          have hr' : i < r.length := by
            have := hlen' r hr
            omega
          rw [dot_drop_cons r i hr']
          obtain ⟨m, hm, hrm⟩ := List.mem_iff_getElem.mp hr
          have := hup (m + 1) (by simpa using hm) i le_rfl (by omega)
          rw [List.getD_cons_succ, List.getD_eq_getElem rest [] hm, hrm] at this
          rw [this]; ring

theorem mulVec_length (A : Matrix) (v : Vector) : (A.mulVec v).length = A.size1 := by
  simp [Matrix.mulVec, Matrix.size1]

/-- The right-hand side computed by the loop of `solve`, entry by entry. -/
theorem solveLoop_spec (x : VectorConfig) (n : Nat) (l : List (Key × Matrix)) :
    ∀ rhs : Vector, rhs.length = n →
      (∀ p ∈ l, p.2.size1 = n) → (∀ p ∈ l, x p.1 ≠ none) →
      ∃ r, ConditionalGaussian.solveLoop x l rhs = .ok r ∧ r.length = n ∧
        ∀ i, r.getD i 0
          = rhs.getD i 0 - (l.map (fun p => (p.2.mulVec ((x p.1).getD [])).getD i 0)).sum := by
  induction l with
  | nil => intro rhs h _ _; exact ⟨rhs, rfl, h, by simp⟩
  | cons hd tl ih =>
    intro rhs h hA hx
    obtain ⟨j, Aj⟩ := hd
    cases hxj : x j with
    | none => exact absurd hxj (hx (j, Aj) (List.mem_cons_self _ _))
    | some v =>
      have hAj : Aj.size1 = n := hA (j, Aj) (List.mem_cons_self _ _)
      obtain ⟨r, hr, hrl, hri⟩ := ih (vsub rhs (Aj.mulVec v))
        (by rw [vsub_length, h])
        (fun p hp => hA p (List.mem_cons_of_mem _ hp))
        (fun p hp => hx p (List.mem_cons_of_mem _ hp))
      refine ⟨r, ?_, hrl, ?_⟩
      · simp only [ConditionalGaussian.solveLoop, VectorConfig.at, hxj, hr]
      · intro i
        rw [hri i, vsub_getD rhs _ i (by rw [mulVec_length, h, hAj])]
        simp only [List.map_cons, List.sum_cons, hxj, Option.getD_some]
        ring

/-! ## Lemmas on `equals` -/

theorem vector_equal_refl (v : Vector) (tol : ℚ) (h : 0 ≤ tol) :
    Vector.equal_with_abs_tol v v tol = true := by
  induction v with
  | nil => rfl
  | cons hd tl ih => simp [Vector.equal_with_abs_tol, ih, h]

theorem rows_equal_refl (rows : List (List ℚ)) (tol : ℚ) (h : 0 ≤ tol) :
    rows_equal_with_abs_tol rows rows tol = true := by
  induction rows with
  | nil => rfl
  | cons hd tl ih => simp [rows_equal_with_abs_tol, ih, vector_equal_refl hd tol h]

theorem matrix_equal_refl (A : Matrix) (tol : ℚ) (h : 0 ≤ tol) :
    A.equal_with_abs_tol A tol = true := by
  simp [Matrix.equal_with_abs_tol, rows_equal_refl A.rows tol h]

theorem vector_equal_symm (u : Vector) (tol : ℚ) :
    ∀ v : Vector, Vector.equal_with_abs_tol u v tol = Vector.equal_with_abs_tol v u tol := by
  induction u with
  | nil => intro v; cases v <;> rfl
  | cons hd tl ih =>
    intro v
    cases v with
    | nil => rfl
    | cons hv tv => simp [Vector.equal_with_abs_tol, ih tv, abs_sub_comm hd hv]

theorem rows_equal_symm (r : List (List ℚ)) (tol : ℚ) :
    ∀ s : List (List ℚ), rows_equal_with_abs_tol r s tol = rows_equal_with_abs_tol s r tol := by
  induction r with
  | nil => intro s; cases s <;> rfl
  | cons hd tl ih =>
    intro s
    cases s with
    | nil => rfl
    | cons hs ts => simp [rows_equal_with_abs_tol, ih ts, vector_equal_symm hd tol hs]

theorem matrix_equal_symm (A B : Matrix) (tol : ℚ) :
    A.equal_with_abs_tol B tol = B.equal_with_abs_tol A tol := by
  simp only [Matrix.equal_with_abs_tol, rows_equal_symm A.rows tol B.rows]
  rw [Bool.beq_comm, Bool.beq_comm (a := A.size2)]

/-- The tolerance-equality of vectors, entry by entry. -/
theorem vector_equal_iff (u : Vector) (tol : ℚ) :
    ∀ v : Vector, Vector.equal_with_abs_tol u v tol = true ↔
      u.length = v.length ∧ ∀ i, i < u.length → |u.getD i 0 - v.getD i 0| ≤ tol := by
  induction u with
  | nil =>
    intro v
    cases v with
    | nil => simp [Vector.equal_with_abs_tol]
    | cons hv tv => simp [Vector.equal_with_abs_tol]
  | cons hd tl ih =>
    intro v
    cases v with
    | nil => simp [Vector.equal_with_abs_tol]
    | cons hv tv =>
      simp only [Vector.equal_with_abs_tol, Bool.and_eq_true, decide_eq_true_eq, ih tv,
        List.length_cons, Nat.add_right_cancel_iff]
      constructor
      · rintro ⟨h0, hl, hr⟩
        refine ⟨hl, ?_⟩
        intro i hi
        cases i with
        | zero => simpa using h0
        | succ n => simpa using hr n (by omega)
      · rintro ⟨hl, hr⟩
        refine ⟨by simpa using hr 0 (by omega), hl, ?_⟩
        intro i hi
        simpa using hr (i + 1) (by omega)

/-- The tolerance-equality of lists of rows, row by row. -/
theorem rows_equal_iff (r : List (List ℚ)) (tol : ℚ) :
    ∀ s : List (List ℚ), rows_equal_with_abs_tol r s tol = true ↔
      r.length = s.length
      ∧ ∀ i, i < r.length → Vector.equal_with_abs_tol (r.getD i []) (s.getD i []) tol = true := by
  induction r with
  | nil =>
    intro s
    cases s with
    | nil => simp [rows_equal_with_abs_tol]
    | cons hs ts => simp [rows_equal_with_abs_tol]
  | cons hd tl ih =>
    intro s
    cases s with
    | nil => simp [rows_equal_with_abs_tol]
    | cons hs ts =>
      simp only [rows_equal_with_abs_tol, Bool.and_eq_true, ih ts,
        List.length_cons, Nat.add_right_cancel_iff]
      constructor
      · rintro ⟨h0, hl, hr⟩
        refine ⟨hl, ?_⟩
        intro i hi
        cases i with
        | zero => simpa using h0
        | succ n => simpa using hr n (by omega)
      · rintro ⟨hl, hr⟩
        refine ⟨by simpa using hr 0 (by omega), hl, ?_⟩
        intro i hi
        simpa using hr (i + 1) (by omega)

theorem row_length (A : Matrix) (i : Nat) (h : i < A.size1) :
    (A.rows.getD i []).length = A.size2 := by
  rw [List.getD_eq_getElem A.rows [] h]
  exact A.rect _ (List.getElem_mem _)

/-- The tolerance-equality of matrices, entry by entry: same dimensions and every pair of
entries within `tol`. -/
theorem matrix_equal_iff (A B : Matrix) (tol : ℚ) :
    A.equal_with_abs_tol B tol = true ↔
      A.size1 = B.size1 ∧ A.size2 = B.size2
      ∧ ∀ i j, i < A.size1 → j < A.size2 → |A.get i j - B.get i j| ≤ tol := by
  simp only [Matrix.equal_with_abs_tol, Bool.and_eq_true, beq_iff_eq, rows_equal_iff]
  constructor
  · rintro ⟨⟨h1, h2⟩, _, h3⟩
    refine ⟨h1, h2, ?_⟩
    intro i j hi hj
    have := ((vector_equal_iff _ tol _).mp (h3 i hi)).2 j (by rw [row_length A i hi]; exact hj)
    exact this
  · rintro ⟨h1, h2, h3⟩
    refine ⟨⟨h1, h2⟩, h1, ?_⟩
    intro i hi
    rw [vector_equal_iff]
    refine ⟨by rw [row_length A i hi, row_length B i (h1 ▸ hi)]; exact h2, ?_⟩
    intro j hj
    exact h3 i j hi (by rw [← row_length A i hi]; exact hj)

theorem findEntry_of_mem (k : Key) (v : Matrix) (l : List (Key × Matrix))
    (hs : l.Pairwise (fun p q => p.1 < q.1)) (h : (k, v) ∈ l) : findEntry k l = some v := by
  induction l with
  | nil => simp at h
  | cons hd tl ih =>
    obtain ⟨k', v'⟩ := hd
    rw [List.pairwise_cons] at hs
    rcases List.mem_cons.mp h with h1 | h1
    · simp only [Prod.mk.injEq] at h1
      simp [findEntry, h1.1, h1.2]
    · have : k' < k := hs.1 (k, v) h1
      simp only [findEntry, if_neg (ne_of_gt this)]
      exact ih hs.2 h1

theorem mem_of_findEntry (k : Key) (v : Matrix) (l : List (Key × Matrix))
    (h : findEntry k l = some v) : (k, v) ∈ l := by
  induction l with
  | nil => simp [findEntry] at h
  | cons hd tl ih =>
    obtain ⟨k', v'⟩ := hd
    simp only [findEntry] at h
    split_ifs at h with h1
    · simp only [Option.some.injEq] at h
      rw [h1, h]; exact List.mem_cons_self _ _
    · exact List.mem_cons_of_mem _ (ih h)

theorem equalsLoop_iff (p : ConditionalGaussian) (tol : ℚ) (l : List (Key × Matrix)) :
    ConditionalGaussian.equalsLoop p tol l = true ↔
      ∀ it ∈ l, ∃ m2, p.parents_.find (c_str it.1) = some m2
        ∧ it.2.equal_with_abs_tol m2 tol = true := by
  induction l with
  | nil => simp [ConditionalGaussian.equalsLoop]
  | cons hd tl ih =>
    simp only [ConditionalGaussian.equalsLoop, List.forall_mem_cons]
    cases hf : p.parents_.find (c_str hd.1) with
    | none => simp
    | some m2 =>
      cases he : hd.2.equal_with_abs_tol m2 tol with
      | false => simp [he]
      | true => simp [he, ih]

theorem equals_gaussian_iff (a p : ConditionalGaussian) (tol : ℚ) :
    a.equals (.gaussian p) tol = true ↔
      a.key_ = p.key_ ∧ a.parents_.size = p.parents_.size
      ∧ a.R_.equal_with_abs_tol p.R_ tol = true
      ∧ Vector.equal_with_abs_tol a.d_ p.d_ tol = true
      ∧ Vector.equal_with_abs_tol a.precisions_ p.precisions_ tol = true
      ∧ ConditionalGaussian.equalsLoop p tol a.parents_.entries = true := by
  simp only [ConditionalGaussian.equals, Conditional.equals, ConditionalRef.base, dynamic_cast]
  by_cases h1 : a.key_ = p.key_ <;> by_cases h2 : a.parents_.size = p.parents_.size <;>
    cases h3 : a.R_.equal_with_abs_tol p.R_ tol <;>
    cases h4 : Vector.equal_with_abs_tol a.d_ p.d_ tol <;>
    cases h5 : Vector.equal_with_abs_tol a.precisions_ p.precisions_ tol <;>
    simp [h1, h2]

/-- Supporting fact for C6: `equals` is reflexive on the nodes whose parent keys are left
unchanged by `c_str()` (no character of code 0 in them). -/
theorem equals_refl_of_c_str_fixed (a : ConditionalGaussian) (tol : ℚ) (ht : 0 ≤ tol)
    (hk : ∀ p ∈ a.parents_.entries, c_str p.1 = p.1) :
    a.equals (.gaussian a) tol = true := by
  rw [equals_gaussian_iff]
  refine ⟨rfl, rfl, matrix_equal_refl _ _ ht, vector_equal_refl _ _ ht,
    vector_equal_refl _ _ ht, ?_⟩
  rw [equalsLoop_iff]
  intro it hit
  refine ⟨it.2, ?_, matrix_equal_refl _ _ ht⟩
  rw [hk it hit]
  exact findEntry_of_mem it.1 it.2 _ a.parents_.sorted hit

theorem keys_nodup (m : Parents) : (m.entries.map Prod.fst).Nodup := by
  have := m.sorted
  rw [List.Nodup, List.pairwise_map]
  exact this.imp (fun h => ne_of_lt h)

theorem equals_symm_aux (a b : ConditionalGaussian) (tol : ℚ)
    (ha : ∀ p ∈ a.parents_.entries, c_str p.1 = p.1)
    (hb : ∀ p ∈ b.parents_.entries, c_str p.1 = p.1)
    (h : a.equals (.gaussian b) tol = true) : b.equals (.gaussian a) tol = true := by
  rw [equals_gaussian_iff] at h ⊢
  obtain ⟨h1, h2, h3, h4, h5, h6⟩ := h
  refine ⟨h1.symm, h2.symm, by rw [matrix_equal_symm]; exact h3,
    by rw [vector_equal_symm]; exact h4, by rw [vector_equal_symm]; exact h5, ?_⟩
  rw [equalsLoop_iff] at h6 ⊢
  have hsub : a.parents_.entries.map Prod.fst ⊆ b.parents_.entries.map Prod.fst := by
    intro k hk
    obtain ⟨p, hp, rfl⟩ := List.mem_map.mp hk
    obtain ⟨m2, hm2, _⟩ := h6 p hp
    rw [ha p hp] at hm2
    exact List.mem_map.mpr ⟨(p.1, m2), mem_of_findEntry _ _ _ hm2, rfl⟩
  have hperm : (a.parents_.entries.map Prod.fst).Perm (b.parents_.entries.map Prod.fst) :=
    (List.subperm_of_subset (keys_nodup a.parents_) hsub).perm_of_length_le
      (by simp only [List.length_map]; exact le_of_eq h2.symm)
  intro it hit
  have hmem : it.1 ∈ a.parents_.entries.map Prod.fst :=
    hperm.symm.subset (List.mem_map_of_mem _ hit)
  obtain ⟨q, hq, hq1⟩ := List.mem_map.mp hmem
  obtain ⟨m2, hm2, he⟩ := h6 q hq
  rw [ha q hq, hq1] at hm2
  have hfind : findEntry it.1 b.parents_.entries = some it.2 :=
    findEntry_of_mem it.1 it.2 _ b.parents_.sorted hit
  have hm : m2 = it.2 := by
    have := hm2.symm.trans hfind
    simpa using this
  refine ⟨q.2, ?_, ?_⟩
  · rw [hb it hit, ← hq1]
    exact findEntry_of_mem q.1 q.2 _ a.parents_.sorted hq
  · rw [matrix_equal_symm, ← hm]; exact he

/-- Supporting fact for C5: `equals` is symmetric on the nodes whose parent keys are left
unchanged by `c_str()` (no character of code 0 in them), at every tolerance. -/
theorem equals_symm_of_c_str_fixed (a b : ConditionalGaussian) (tol : ℚ)
    (ha : ∀ p ∈ a.parents_.entries, c_str p.1 = p.1)
    (hb : ∀ p ∈ b.parents_.entries, c_str p.1 = p.1) :
    a.equals (.gaussian b) tol = b.equals (.gaussian a) tol := by
  rw [Bool.eq_iff_iff]
  exact ⟨equals_symm_aux a b tol ha hb, equals_symm_aux b a tol hb ha⟩

theorem vector_equal_changed (v v' : Vector) (i0 : Nat) (δ tol : ℚ) (ht : 0 ≤ tol)
    (h : Vector.changedAt v v' i0 δ) :
    Vector.equal_with_abs_tol v v' tol = true ↔ |δ| ≤ tol := by
  obtain ⟨hl, hi0, hval, hrest⟩ := h
  rw [vector_equal_iff]
  constructor
  · rintro ⟨_, h2⟩
    have := h2 i0 hi0
    rw [hval] at this
    simpa [abs_neg] using this
  · intro hδ
    refine ⟨hl.symm, ?_⟩
    intro i _
    by_cases hi : i = i0
    · subst hi; rw [hval]; simpa [abs_neg] using hδ
    · rw [hrest i hi]; simpa using ht

theorem matrix_equal_changed (A A' : Matrix) (i0 j0 : Nat) (δ tol : ℚ) (ht : 0 ≤ tol)
    (h : A.changedAt A' i0 j0 δ) :
    A.equal_with_abs_tol A' tol = true ↔ |δ| ≤ tol := by
  obtain ⟨h1, h2, hi0, hj0, hval, hrest⟩ := h
  rw [matrix_equal_iff]
  constructor
  · rintro ⟨_, _, h3⟩
    have := h3 i0 j0 hi0 hj0
    rw [hval] at this
    simpa [abs_neg] using this
  · intro hδ
    refine ⟨h1.symm, h2.symm, ?_⟩
    intro i j _ _
    by_cases hij : i = i0 ∧ j = j0
    · obtain ⟨rfl, rfl⟩ := hij
      rw [hval]; simpa [abs_neg] using hδ
    · rw [hrest i j (by tauto)]; simpa using ht

theorem equalsLoop_same_parents (a p : ConditionalGaussian) (tol : ℚ) (ht : 0 ≤ tol)
    (hk : ∀ q ∈ a.parents_.entries, c_str q.1 = q.1) (hp : p.parents_ = a.parents_) :
    ConditionalGaussian.equalsLoop p tol a.parents_.entries = true := by
  rw [equalsLoop_iff]
  intro it hit
  refine ⟨it.2, ?_, matrix_equal_refl _ _ ht⟩
  rw [hk it hit, hp]
  exact findEntry_of_mem it.1 it.2 _ a.parents_.sorted hit

theorem mem_keys_iff_find (m : Parents) (k : Key) :
    k ∈ m.entries.map Prod.fst ↔ ∃ v, m.find k = some v := by
  constructor
  · intro h
    obtain ⟨q, hq, rfl⟩ := List.mem_map.mp h
    exact ⟨q.2, findEntry_of_mem q.1 q.2 _ m.sorted hq⟩
  · rintro ⟨v, hv⟩
    exact List.mem_map.mpr ⟨(k, v), mem_of_findEntry _ _ _ hv, rfl⟩

theorem size_eq_of_same_keys (m m' : Parents)
    (h : ∀ k, (∃ v, m'.find k = some v) ↔ ∃ v, m.find k = some v) : m.size = m'.size := by
  have hperm : (m.entries.map Prod.fst).Perm (m'.entries.map Prod.fst) := by
    rw [List.perm_ext_iff_of_nodup (keys_nodup m) (keys_nodup m')]
    intro k
    rw [mem_keys_iff_find, mem_keys_iff_find, h k]
  simpa [Parents.size] using hperm.length_eq

/-- Supporting fact for C7: on the nodes whose parent keys are left unchanged by `c_str()`
(no character of code 0 in them), for `tol ≥ 0` and a node `a'` that is `a` with exactly one
entry of `R`, `d`, `precisions` or one parent matrix changed by `δ`, `a.equals(a', tol)`
is true exactly when `|δ| ≤ tol`: false for `|δ| > tol`, true for `|δ| < tol`. -/
theorem equals_changed_of_c_str_fixed (a a' : ConditionalGaussian) (tol δ : ℚ) (ht : 0 ≤ tol)
    (hk : ∀ p ∈ a.parents_.entries, c_str p.1 = p.1) (hc : SingleEntryChanged a a' δ) :
    (tol < |δ| → a.equals (.gaussian a') tol = false)
    ∧ (|δ| < tol → a.equals (.gaussian a') tol = true) := by
  have key : a.equals (.gaussian a') tol = true ↔ |δ| ≤ tol := by
    rw [equals_gaussian_iff]
    cases hc with
    | inR i j hkey hR hd hprec hpar =>
      rw [matrix_equal_changed _ _ i j δ tol ht hR, hd, hprec, hpar, hkey]
      have := equalsLoop_same_parents a a' tol ht hk hpar
      simp [vector_equal_refl _ _ ht, this]
    | inD i hkey hR hd hprec hpar =>
      rw [vector_equal_changed _ _ i δ tol ht hd, hR, hprec, hpar, hkey]
      have := equalsLoop_same_parents a a' tol ht hk hpar
      simp [vector_equal_refl _ _ ht, matrix_equal_refl _ _ ht, this]
    | inPrecisions i hkey hR hd hprec hpar =>
      rw [vector_equal_changed _ _ i δ tol ht hprec, hR, hd, hpar, hkey]
      have := equalsLoop_same_parents a a' tol ht hk hpar
      simp [vector_equal_refl _ _ ht, matrix_equal_refl _ _ ht, this]
    | inParent k M M' i j hkey hR hd hprec hM hM' hch hrest =>
      have hsize : a.parents_.size = a'.parents_.size := by
        apply size_eq_of_same_keys
        intro k'
        by_cases hkk : k' = k
        · subst hkk; simp [hM, hM']
        · rw [hrest k' hkk]
      rw [hR, hd, hprec, hkey, equalsLoop_iff]
      simp only [vector_equal_refl _ _ ht, matrix_equal_refl _ _ ht, hsize, true_and]
      constructor
      · intro h
        obtain ⟨m2, hm2, he⟩ := h (k, M) (mem_of_findEntry _ _ _ hM)
        rw [hk _ (mem_of_findEntry _ _ _ hM)] at hm2
        simp only at hm2
        rw [hM'] at hm2
        simp only [Option.some.injEq] at hm2
        rw [← hm2] at he
        exact (matrix_equal_changed _ _ i j δ tol ht hch).mp he
      · intro hδ it hit
        rw [hk it hit]
        have hfind : a.parents_.find it.1 = some it.2 :=
          findEntry_of_mem it.1 it.2 _ a.parents_.sorted hit
        by_cases hkk : it.1 = k
        · rw [hkk] at hfind ⊢
          have hMit : M = it.2 := by
            have := hM.symm.trans hfind
            simpa using this
          refine ⟨M', hM', ?_⟩
          rw [← hMit]
          exact (matrix_equal_changed _ _ i j δ tol ht hch).mpr hδ
        · refine ⟨it.2, ?_, matrix_equal_refl _ _ ht⟩
          rw [hrest it.1 hkk]; exact hfind
  constructor
  · intro h
    rw [← Bool.not_eq_true, key]
    exact not_le.mpr h
  · intro h
    exact key.mpr (le_of_lt h)

/-- Supporting fact for C9: reading back what `serialize` wrote restores every field but
the key, which stays the one of the default constructor. -/
theorem deserialize_serialize (a : ConditionalGaussian) :
    ConditionalGaussian.deserialize (ConditionalGaussian.serialize a)
      = { a with key_ := "__unitialized__" } := rfl

/-! ## The order of the entries under `insert` -/

theorem mem_insertEntry (k : Key) (v : Matrix) (l : List (Key × Matrix)) (q : Key × Matrix)
    (hq : q ∈ insertEntry k v l) : q = (k, v) ∨ q ∈ l := by
  induction l with
  | nil => simpa [insertEntry] using hq
  | cons hd tl ih =>
    obtain ⟨k', v'⟩ := hd
    by_cases h1 : k < k'
    · simp only [insertEntry, if_pos h1] at hq
      simpa using hq
    · by_cases h2 : k = k'
      · simp only [insertEntry, if_neg h1, if_pos h2] at hq
        exact Or.inr hq
      · simp only [insertEntry, if_neg h1, if_neg h2] at hq
        rcases List.mem_cons.mp hq with h | h
        · exact Or.inr (h ▸ List.mem_cons_self _ _)
        · rcases ih h with h | h
          · exact Or.inl h
          · exact Or.inr (List.mem_cons_of_mem _ h)

/-- Supporting fact for C20: inserting into strictly ascending entries leaves them strictly
ascending. -/
theorem insertEntry_sorted (k : Key) (v : Matrix) (l : List (Key × Matrix))
    (hs : l.Pairwise (fun p q => p.1 < q.1)) :
    (insertEntry k v l).Pairwise (fun p q => p.1 < q.1) := by
  induction l with
  | nil => simp [insertEntry]
  | cons hd tl ih =>
    obtain ⟨k', v'⟩ := hd
    rw [List.pairwise_cons] at hs
    by_cases h1 : k < k'
    · simp only [insertEntry, if_pos h1]
      refine List.Pairwise.cons ?_ (List.Pairwise.cons hs.1 hs.2)
      intro q hq
      rcases List.mem_cons.mp hq with h | h
      · rw [h]; exact h1
      · exact lt_trans h1 (hs.1 q h)
    · by_cases h2 : k = k'
      · simp only [insertEntry, if_neg h1, if_pos h2]
        exact List.Pairwise.cons hs.1 hs.2
      · simp only [insertEntry, if_neg h1, if_neg h2]
        refine List.Pairwise.cons ?_ (ih hs.2)
        intro q hq
        rcases mem_insertEntry k v tl q hq with h | h
        · rw [h]
          exact lt_of_le_of_ne (not_lt.mp h1) (fun e => h2 e.symm)
        · exact hs.1 q h

/-- Supporting fact for C20: `add("z")`, `add("y")`, `add("z")` on a node without parents
gives the parents `y`, `z`, in this order, and the first matrix given for `z`. -/
theorem addAll_example :
    ((ConditionalGaussian.mk0 "x" [1] (scalarMatrix 1) [1]).addAll
      [("z", scalarMatrix 1), ("y", scalarMatrix 2), ("z", scalarMatrix 3)]).parents = ["y", "z"]
    ∧ ((ConditionalGaussian.mk0 "x" [1] (scalarMatrix 1) [1]).addAll
      [("z", scalarMatrix 1), ("y", scalarMatrix 2), ("z", scalarMatrix 3)]).parents_.find "z"
      = some (scalarMatrix 1) := by
  decide!

/-! ## Lemmas on the parent count and on the keys -/

theorem count_eq_entries (k : Key) (l : List (Key × Matrix))
    (hs : l.Pairwise (fun p q => p.1 < q.1)) :
    (l.filter (fun p => p.1 = k)).length = if k ∈ l.map Prod.fst then 1 else 0 := by
  induction l with
  | nil => simp
  | cons hd tl ih =>
    obtain ⟨k', v'⟩ := hd
    rw [List.pairwise_cons] at hs
    by_cases h : k' = k
    · subst h
      rw [List.filter_cons_of_pos (by simp), filter_key_of_lt k' tl hs.1]
      simp
    · rw [List.filter_cons_of_neg (by simpa using h), ih hs.2]
      have : k ∈ List.map Prod.fst ((k', v') :: tl) ↔ k ∈ List.map Prod.fst tl := by
        simp only [List.map_cons, List.mem_cons]
        constructor
        · rintro (h1 | h1)
          · exact absurd h1.symm h
          · exact h1
        · exact Or.inr
      simp only [this]

theorem Parents.count_eq (m : Parents) (k : Key) :
    m.count k = if k ∈ m.entries.map Prod.fst then 1 else 0 :=
  count_eq_entries k m.entries m.sorted

theorem mem_keys_insert (m : Parents) (k : Key) (v : Matrix) (j : Key) :
    j ∈ (m.insert k v).entries.map Prod.fst ↔ j = k ∨ j ∈ m.entries.map Prod.fst := by
  rw [mem_keys_iff_find, mem_keys_iff_find, Parents.find_insert]
  by_cases h : j = k
  · simp [h]
  · simp [h]

theorem length_insertEntry (k : Key) (v : Matrix) (l : List (Key × Matrix))
    (hs : l.Pairwise (fun p q => p.1 < q.1)) :
    (insertEntry k v l).length = if k ∈ l.map Prod.fst then l.length else l.length + 1 := by
  induction l with
  | nil => simp [insertEntry]
  | cons hd tl ih =>
    obtain ⟨k', v'⟩ := hd
    rw [List.pairwise_cons] at hs
    by_cases h1 : k < k'
    · have hnot : k ∉ List.map Prod.fst ((k', v') :: tl) := by
        intro hmem
        obtain ⟨q, hq, hqk⟩ := List.mem_map.mp hmem
        rcases List.mem_cons.mp hq with h | h
        · rw [h] at hqk; exact absurd hqk (ne_of_gt h1)
        · exact absurd hqk (ne_of_gt (lt_trans h1 (hs.1 q h)))
      simp only [insertEntry, if_pos h1, if_neg hnot, List.length_cons]
    · by_cases h2 : k = k'
      · subst h2
        simp [insertEntry]
      · have hiff : k ∈ List.map Prod.fst ((k', v') :: tl) ↔ k ∈ List.map Prod.fst tl := by
          simp only [List.map_cons, List.mem_cons]
          constructor
          · rintro (h | h)
            · exact absurd h h2
            · exact h
          · exact Or.inr
        simp only [insertEntry, if_neg h1, if_neg h2, List.length_cons, ih hs.2, hiff]
        split_ifs <;> rfl

theorem Parents.size_insert (m : Parents) (k : Key) (v : Matrix) :
    (m.insert k v).size = if k ∈ m.entries.map Prod.fst then m.size else m.size + 1 :=
  length_insertEntry k v m.entries m.sorted

/-! ## Lemmas on the loop of `solve` -/

theorem vsub_comm (a : Vector) : ∀ b c : Vector, vsub (vsub a b) c = vsub (vsub a c) b := by
  induction a with
  | nil => intro b c; cases b <;> cases c <;> rfl
  | cons hd tl ih =>
    intro b c
    cases b with
    | nil => cases c <;> rfl
    | cons hb tb =>
      cases c with
      | nil => rfl
      | cons hc tc =>
        simp only [vsub, ih tb tc, List.cons.injEq, and_true]
        ring

/-- The loop of `solve` gives the same outcome on every arrangement of the entries. -/
theorem solveLoop_perm (x : VectorConfig) {l₁ l₂ : List (Key × Matrix)} (h : l₁.Perm l₂) :
    ∀ rhs : Vector,
      ConditionalGaussian.solveLoop x l₁ rhs = ConditionalGaussian.solveLoop x l₂ rhs := by
  induction h with
  | nil => intro rhs; rfl
  | cons p _ ih =>
    intro rhs
    obtain ⟨j, Aj⟩ := p
    simp only [ConditionalGaussian.solveLoop]
    cases x.at j with
    | error e => rfl
    | ok xj => exact ih _
  | swap p q l =>
    intro rhs
    obtain ⟨j, Aj⟩ := p
    obtain ⟨i, Ai⟩ := q
    simp only [ConditionalGaussian.solveLoop, VectorConfig.at]
    cases x j with
    | none => cases x i <;> rfl
    | some v =>
      cases x i with
      | none => rfl
      | some w => simp only [vsub_comm rhs (Ai.mulVec w) (Aj.mulVec v)]
  | trans _ _ ih₁ ih₂ => intro rhs; rw [ih₁, ih₂]

theorem solveLoop_congr (x y : VectorConfig) (l : List (Key × Matrix))
    (h : ∀ p ∈ l, x p.1 = y p.1) :
    ∀ rhs : Vector,
      ConditionalGaussian.solveLoop x l rhs = ConditionalGaussian.solveLoop y l rhs := by
  induction l with
  | nil => intro rhs; rfl
  | cons hd tl ih =>
    intro rhs
    obtain ⟨j, Aj⟩ := hd
    have hj : x j = y j := h (j, Aj) (List.mem_cons_self _ _)
    simp only [ConditionalGaussian.solveLoop, VectorConfig.at, hj]
    cases y j with
    | none => rfl
    | some v => exact ih (fun p hp => h p (List.mem_cons_of_mem _ hp)) _

/-! ## Lemmas on the tolerance -/

theorem vector_equal_mono (u : Vector) (t1 t2 : ℚ) (ht : t1 ≤ t2) :
    ∀ v : Vector, Vector.equal_with_abs_tol u v t1 = true →
      Vector.equal_with_abs_tol u v t2 = true := by
  intro v h
  rw [vector_equal_iff] at h ⊢
  exact ⟨h.1, fun i hi => le_trans (h.2 i hi) ht⟩

theorem matrix_equal_mono (A B : Matrix) (t1 t2 : ℚ) (ht : t1 ≤ t2)
    (h : A.equal_with_abs_tol B t1 = true) : A.equal_with_abs_tol B t2 = true := by
  rw [matrix_equal_iff] at h ⊢
  exact ⟨h.1, h.2.1, fun i j hi hj => le_trans (h.2.2 i j hi hj) ht⟩

/-! ## Lemmas on `equals` at tolerance 0 -/

theorem vector_equal_zero (u : Vector) :
    ∀ v : Vector, Vector.equal_with_abs_tol u v 0 = true → u = v := by
  induction u with
  | nil =>
    intro v h
    cases v with
    | nil => rfl
    | cons hv tv => simp [Vector.equal_with_abs_tol] at h
  | cons hd tl ih =>
    intro v h
    cases v with
    | nil => simp [Vector.equal_with_abs_tol] at h
    | cons hv tv =>
      simp only [Vector.equal_with_abs_tol, Bool.and_eq_true, decide_eq_true_eq,
        abs_nonpos_iff, sub_eq_zero] at h
      rw [h.1, ih tv h.2]

theorem rows_equal_zero (r : List (List ℚ)) :
    ∀ s : List (List ℚ), rows_equal_with_abs_tol r s 0 = true → r = s := by
  induction r with
  | nil =>
    intro s h
    cases s with
    | nil => rfl
    | cons hs ts => simp [rows_equal_with_abs_tol] at h
  | cons hd tl ih =>
    intro s h
    cases s with
    | nil => simp [rows_equal_with_abs_tol] at h
    | cons hs ts =>
      simp only [rows_equal_with_abs_tol, Bool.and_eq_true] at h
      rw [vector_equal_zero hd hs h.1, ih ts h.2]

theorem matrix_equal_zero (A B : Matrix) (h : A.equal_with_abs_tol B 0 = true) : A = B := by
  simp only [Matrix.equal_with_abs_tol, Bool.and_eq_true, beq_iff_eq] at h
  obtain ⟨⟨_, h2⟩, h3⟩ := h
  have h4 := rows_equal_zero _ _ h3
  cases A
  cases B
  simp only at h2 h4
  subst h2
  subst h4
  rfl

/-- Supporting fact for C18: when the parent keys of `a` are left unchanged by `c_str()`
(no character of code 0 in them), `a.equals(b, 0)` holds only if `a` and `b` are the same
node: same key, `R`, `d`, `precisions` and parent map. -/
theorem eq_of_equals_zero_of_c_str_fixed (a b : ConditionalGaussian)
    (ha : ∀ p ∈ a.parents_.entries, c_str p.1 = p.1)
    (h : a.equals (.gaussian b) 0 = true) : a = b := by
  rw [equals_gaussian_iff] at h
  obtain ⟨h1, h2, h3, h4, h5, h6⟩ := h
  rw [equalsLoop_iff] at h6
  have hsub : a.parents_.entries ⊆ b.parents_.entries := by
    intro it hit
    obtain ⟨m2, hm2, he⟩ := h6 it hit
    rw [ha it hit] at hm2
    have := mem_of_findEntry _ _ _ hm2
    rw [← matrix_equal_zero _ _ he] at this
    exact this
  have hnodup : a.parents_.entries.Nodup :=
    a.parents_.sorted.imp (fun hlt heq => absurd (heq ▸ hlt) (lt_irrefl _))
  have hperm : a.parents_.entries.Perm b.parents_.entries :=
    (List.subperm_of_subset hnodup hsub).perm_of_length_le (le_of_eq h2.symm)
  haveI : IsAntisymm (Key × Matrix) (fun p q => p.1 < q.1) :=
    ⟨fun _ _ hpq hqp => absurd hpq (lt_asymm hqp)⟩
  have hent : a.parents_.entries = b.parents_.entries :=
    List.eq_of_perm_of_sorted hperm a.parents_.sorted b.parents_.sorted
  have hR := matrix_equal_zero _ _ h3
  have hd := vector_equal_zero _ _ h4
  have hp := vector_equal_zero _ _ h5
  obtain ⟨⟨ka⟩, Ra, ⟨ea, sa⟩, pa, da⟩ := a
  obtain ⟨⟨kb⟩, Rb, ⟨eb, sb⟩, pb, db⟩ := b
  simp only at h1 hent hR hd hp
  subst h1 hent hR hd hp
  rfl

/-- Every node is the result of the arbitrary-parents constructor on its own fields. -/
theorem mkN_fields (a : ConditionalGaussian) :
    ConditionalGaussian.mkN a.key_ a.d_ a.R_ a.parents_ a.precisions_ = a := rfl

/-! ## The claims -/

/-- C1: for a node whose `R` is square, upper-triangular and has no zero on its diagonal,
whose `d` and parent matrices have as many rows as `R`, and for an assignment `x` that
holds a value of matching length for every parent key, `solve(x)` returns a vector `r`
with `R·r = d − Σ_j Aj·x[j]`, the sum taken over all parents (stated entry by entry). -/
theorem solve_satisfies_system (a : ConditionalGaussian) (x : VectorConfig)
    (hsq : a.R_.size1 = a.R_.size2)
    (hup : ∀ i, i < a.R_.size1 → ∀ j, j < i → a.R_.get i j = 0)
    (hdiag : ∀ i, i < a.R_.size1 → a.R_.get i i ≠ 0)
    (hd : a.d_.length = a.R_.size1)
    (hA : ∀ p ∈ a.parents_.entries, p.2.size1 = a.R_.size1)
    (hx : ∀ p ∈ a.parents_.entries, (x p.1).map List.length = some p.2.size2) :
    ∃ r, a.solve x = .ok r ∧ r.length = a.dim ∧
      ∀ i, (a.R_.mulVec r).getD i 0
        = a.d_.getD i 0
          - (a.parents_.entries.map
              (fun p => (p.2.mulVec ((x p.1).getD [])).getD i 0)).sum := by
  have hx' : ∀ p ∈ a.parents_.entries, x p.1 ≠ none := by
    intro p hp hnone
    have := hx p hp
    rw [hnone] at this
    simp at this
  obtain ⟨rhs, hrhs, hrl, hri⟩ :=
    solveLoop_spec x a.R_.size1 a.parents_.entries a.d_ hd hA hx'
  have hlen : ∀ r ∈ a.R_.rows, r.length = 0 + a.R_.rows.length := by
    intro r hr
    rw [a.R_.rect r hr, Nat.zero_add]
    exact hsq.symm
  have hpiv : ∀ m, m < a.R_.rows.length → (a.R_.rows.getD m []).getD (0 + m) 0 ≠ 0 := by
    intro m hm
    rw [Nat.zero_add]
    exact hdiag m hm
  have hup' : ∀ m, m < a.R_.rows.length → ∀ j, 0 ≤ j → j < 0 + m →
      (a.R_.rows.getD m []).getD j 0 = 0 := by
    intro m hm j _ hj
    exact hup m hm j (by omega)
  obtain ⟨r, hr, hlr, hmap⟩ := backsubstitutionFrom_spec a.R_.rows 0 rhs hlen hpiv hup' hrl
  refine ⟨r, ?_, ?_, ?_⟩
  · simp only [ConditionalGaussian.solve, hrhs, backsubstitution, hr]
  · rw [hlr]; exact hsq
  · intro i
    have : a.R_.mulVec r = rhs := by
      simpa [Matrix.mulVec] using hmap
    rw [this, hri i]

/-- Witness of C1: `R = [[2,1],[0,4]]`, `d = [5,8]`, one parent `y` with the identity
matrix, and the assignment `{y: [1,0]}`; `solve` returns `[1,2]`. -/
theorem solve_satisfies_system_witness :
    (ConditionalGaussian.mk1 "x" [5, 8] ⟨2, [[2, 1], [0, 4]], by decide⟩ "y" I2 [1, 1]).solve
        (VectorConfig.single "y" [1, 0]) = .ok [1, 2]
    ∧ ∃ r, (ConditionalGaussian.mk1 "x" [5, 8] ⟨2, [[2, 1], [0, 4]], by decide⟩ "y" I2
        [1, 1]).solve (VectorConfig.single "y" [1, 0]) = .ok r ∧ r.length = 2 ∧
      ∀ i, (Matrix.mulVec ⟨2, [[2, 1], [0, 4]], by decide⟩ r).getD i 0
        = ([5, 8] : Vector).getD i 0
          - ([("y", I2)].map
              (fun p : Key × Matrix =>
                (p.2.mulVec ((VectorConfig.single "y" [1, 0] p.1).getD [])).getD i 0)).sum :=
  ⟨by decide!,
   solve_satisfies_system
    (ConditionalGaussian.mk1 "x" [5, 8] ⟨2, [[2, 1], [0, 4]], by decide⟩ "y" I2 [1, 1])
    (VectorConfig.single "y" [1, 0]) (by decide!) (by decide!) (by decide!) (by decide!)
    (by decide!) (by decide!)⟩

/-- C2: for a node built with the one-parent constructor `(key, d, R, y, S, precisions)` and
every vector `v`, `solve({y: v})` is `backsubstitution(R, d − S·v)`; and for
`R = [[1,0],[0,1]]`, `d = [5,5]`, `S = [[1,0],[0,1]]` and the assignment `{y: [1,1]}`,
`solve` returns `[4,4]`. -/
theorem solve_single_parent :
    (∀ (key : Key) (d : Vector) (R : Matrix) (y : Key) (S : Matrix) (precisions v : Vector),
      (ConditionalGaussian.mk1 key d R y S precisions).solve (VectorConfig.single y v)
        = backsubstitution R (vsub d (S.mulVec v)))
    ∧ (∀ (key y : Key) (precisions : Vector),
      (ConditionalGaussian.mk1 key [5, 5] I2 y I2 precisions).solve
        (VectorConfig.single y [1, 1]) = .ok [4, 4]) := by
  have general : ∀ (key : Key) (d : Vector) (R : Matrix) (y : Key) (S : Matrix)
      (precisions v : Vector),
      (ConditionalGaussian.mk1 key d R y S precisions).solve (VectorConfig.single y v)
        = backsubstitution R (vsub d (S.mulVec v)) := by
    intro key d R y S precisions v
    simp [ConditionalGaussian.solve, ConditionalGaussian.mk1, Parents.insert, Parents.empty,
      insertEntry, ConditionalGaussian.solveLoop, VectorConfig.at, VectorConfig.single]
  refine ⟨general, ?_⟩
  intro key y precisions
  rw [general]
  decide!

/-- C3: for a node with an empty parent map and every assignment, `solve(assignment)` is
`backsubstitution(R, d)`; and for `R = [[2,0],[0,2]]`, `d = [4,6]` and no parents,
`solve({})` returns `[2,3]`. -/
theorem solve_no_parents (a : ConditionalGaussian) (x : VectorConfig)
    (h : a.nrParents = 0) :
    a.solve x = backsubstitution a.R_ a.d_
    ∧ (∀ (key : Key) (precisions : Vector),
      (ConditionalGaussian.mk0 key [4, 6] twoI2 precisions).solve VectorConfig.empty
        = .ok [2, 3]) := by
  constructor
  · have he : a.parents_.entries = [] := List.length_eq_zero.mp h
    simp [ConditionalGaussian.solve, he, ConditionalGaussian.solveLoop]
  · intro key precisions
    simp only [ConditionalGaussian.solve, ConditionalGaussian.mk0, Parents.empty,
      ConditionalGaussian.solveLoop]
    decide!

/-- Witness of C3: the node `R = [[2,0],[0,2]]`, `d = [4,6]` without parents, solved
against an assignment that holds a value for the unrelated key `z`. -/
theorem solve_no_parents_witness :
    (ConditionalGaussian.mk0 "x" [4, 6] twoI2 [1, 1]).nrParents = 0
    ∧ (ConditionalGaussian.mk0 "x" [4, 6] twoI2 [1, 1]).solve (VectorConfig.single "z" [7])
        = backsubstitution twoI2 [4, 6] :=
  ⟨rfl, (solve_no_parents (ConditionalGaussian.mk0 "x" [4, 6] twoI2 [1, 1])
    (VectorConfig.single "z" [7]) rfl).1⟩

/-- C4: `solve(x)` fails with the missing-parent-value error exactly when the assignment
`x` has no value for at least one key of the parent map; with a value for every parent
key it does not fail with that error. -/
theorem solve_missing_parent_iff (a : ConditionalGaussian) (x : VectorConfig) :
    a.solve x = .error .missingParentValue ↔ ∃ k ∈ a.parents, x k = none := by
  constructor
  · intro h
    by_contra hne
    have hall : ∀ p ∈ a.parents_.entries, x p.1 ≠ none := by
      intro p hp hnone
      exact hne ⟨p.1, List.mem_map_of_mem _ hp, hnone⟩
    obtain ⟨r, hr⟩ := solveLoop_ok x a.parents_.entries a.d_ hall
    simp only [ConditionalGaussian.solve, hr] at h
    have := backsubstitutionFrom_error _ _ _ _ h
    cases this
  · rintro ⟨k, hk, hnone⟩
    obtain ⟨p, hp, rfl⟩ := List.mem_map.mp hk
    simp only [ConditionalGaussian.solve,
      solveLoop_missing x a.parents_.entries a.d_ ⟨p, hp, hnone⟩]

/-- C5 (failing input): `a` has the one parent key `a␀b`, `b` has the one parent key `a`,
everything else equal. `a.equals(b, 0)` is true, since the key is cut at the character of
code 0 before the lookup, and `b.equals(a, 0)` is false. -/
theorem equals_not_symmetric_on_nul_key :
    nulNode.equals
      (.gaussian (ConditionalGaussian.mk1 "x" [1] (scalarMatrix 1) "a" (scalarMatrix 1) [1])) 0
      = true
    ∧ (ConditionalGaussian.mk1 "x" [1] (scalarMatrix 1) "a" (scalarMatrix 1) [1]).equals
      (.gaussian nulNode) 0 = false := by
  decide!

/-- C6 (failing input): the node whose only parent key is `a␀b` is not `equals` to
itself, at tolerance 0 and at tolerance 1. -/
theorem equals_not_reflexive_on_nul_key :
    nulNode.equals (.gaussian nulNode) 0 = false
    ∧ nulNode.equals (.gaussian nulNode) 1 = false := by
  decide!

/-- C7 (failing input): with a parent key `a␀b`, a change of the entry of `R` by `1/2`
leaves `equals` false at tolerance 1; and with the parent keys `a` and `a␀b` holding the
same matrix, a change of the matrix of `a␀b` by 5 leaves `equals` true at tolerance 1. -/
theorem equals_sensitivity_fails_on_nul_key :
    nulNode.equals
      (.gaussian (ConditionalGaussian.mk1 "x" [1] (scalarMatrix (3 / 2)) nulKey
        (scalarMatrix 1) [1])) 1 = false
    ∧ (ConditionalGaussian.mk2 "x" [1] (scalarMatrix 1) "a" (scalarMatrix 1) nulKey
        (scalarMatrix 1) [1]).equals
      (.gaussian (ConditionalGaussian.mk2 "x" [1] (scalarMatrix 1) "a" (scalarMatrix 1) nulKey
        (scalarMatrix 6) [1])) 1 = true := by
  decide!

/-- C8 (counterexample): on a node without parents, `add("k", [[1]])` followed by
`add("k", [[2]])` leaves `[[1]]`, not `[[2]]`, stored for `k`. -/
theorem add_does_not_overwrite :
    (((ConditionalGaussian.mk0 "x" [1] (scalarMatrix 1) [1]).add "k" (scalarMatrix 1)).add "k"
      (scalarMatrix 2)).parents_.find "k" = some (scalarMatrix 1)
    ∧ (((ConditionalGaussian.mk0 "x" [1] (scalarMatrix 1) [1]).add "k" (scalarMatrix 1)).add "k"
      (scalarMatrix 2)).parents_.find "k" ≠ some (scalarMatrix 2) := by
  decide!

/-- C8 (amended): `add` keeps the first write. After `add(k, M1)` followed by
`add(k, M2)` the parent map holds exactly one entry for `k`, and its matrix is the one
stored before the two calls if `k` was a parent, else `M1`; after a single `add(k, M)`
the matrix stored for `k` is the one stored before if `k` was a parent, else `M`. -/
theorem add_first_write_wins (a : ConditionalGaussian) (k : Key) (M1 M2 : Matrix) :
    ((a.add k M1).add k M2).contains k = 1
    ∧ ((a.add k M1).add k M2).parents_.find k = some ((a.parents_.find k).getD M1)
    ∧ (a.add k M1).parents_.find k = some ((a.parents_.find k).getD M1) := by
  refine ⟨Parents.count_insert _ k M2, ?_, ?_⟩
  · simp [ConditionalGaussian.add, Parents.find_insert]
  · simp [ConditionalGaussian.add, Parents.find_insert]

/-- C9 (failing input): the node with key `x`, `R = [[1]]`, `d = [1]`, precisions `[1]`
and no parents. The node read back has the key of the default constructor, so it is not
`equals` to the node written. -/
theorem serialize_round_trip_loses_key :
    (ConditionalGaussian.deserialize (ConditionalGaussian.serialize
      (ConditionalGaussian.mk0 "x" [1] (scalarMatrix 1) [1]))).key_ = "__unitialized__"
    ∧ (ConditionalGaussian.deserialize (ConditionalGaussian.serialize
      (ConditionalGaussian.mk0 "x" [1] (scalarMatrix 1) [1]))).equals
        (.gaussian (ConditionalGaussian.mk0 "x" [1] (scalarMatrix 1) [1])) 0 = false := by
  decide!

/-- C10 (counterexample): the two-parent constructor called with `name1 = name2 = "y"`,
`S = [[1]]` and `T = [[2]]` stores `[[1]]`, not `T`, for `name2`. -/
theorem two_parent_constructor_same_name :
    (ConditionalGaussian.mk2 "x" [1] (scalarMatrix 1) "y" (scalarMatrix 1) "y" (scalarMatrix 2)
      [1]).parents_.find "y" = some (scalarMatrix 1)
    ∧ (ConditionalGaussian.mk2 "x" [1] (scalarMatrix 1) "y" (scalarMatrix 1) "y" (scalarMatrix 2)
      [1]).parents_.find "y" ≠ some (scalarMatrix 2) := by
  decide!

/-- C10 (amended): after the two-parent constructor `(key, d, R, name1, S, name2, T,
precisions)` the parent map stores `S` for `name1`, stores `T` for `name2` unless
`name2 = name1`, and has no other key. -/
theorem two_parent_constructor_parents (key : Key) (d : Vector) (R : Matrix) (name1 : Key)
    (S : Matrix) (name2 : Key) (T : Matrix) (precisions : Vector) (k : Key) :
    (ConditionalGaussian.mk2 key d R name1 S name2 T precisions).parents_.find k
      = if k = name1 then some S else if k = name2 then some T else none := by
  simp only [ConditionalGaussian.mk2, Parents.find_insert]
  by_cases h1 : k = name1
  · subst h1
    by_cases h2 : k = name2
    · subst h2; simp [Parents.find, Parents.empty, findEntry]
    · simp [h2, Parents.find, Parents.empty, findEntry]
  · by_cases h2 : k = name2
    · subst h2
      simp [h1, Parents.find, Parents.empty, findEntry]
    · simp [h1, h2, Parents.find, Parents.empty, findEntry]

/-- C11 (counterexample): the no-parent constructor given `d = [1,2,3]` and the 2×2
identity stores both, and `dim()` is 2, not the length 3 of `d`; given the 1×2 matrix
`[[1,2]]` as `R`, `dim()` is 2 and `R` has one row, so `R` is not square of side `dim()`. -/
theorem dim_is_not_length_of_d :
    (ConditionalGaussian.mk0 "x" [1, 2, 3] I2 [1, 1]).dim = 2
    ∧ (ConditionalGaussian.mk0 "x" [1, 2, 3] I2 [1, 1]).d_.length = 3
    ∧ (ConditionalGaussian.mk0 "x" [1, 2] rowMatrix [1, 1]).dim = 2
    ∧ (ConditionalGaussian.mk0 "x" [1, 2] rowMatrix [1, 1]).R_.size1 = 1 := by
  decide!

/-- C11 (amended): for every node produced by any of the four constructors, whatever the
dimensions of the `R`, `d`, `precisions` and parent matrices given, `dim()` is the column
count of the `R` given, and `R` and `d` are stored as given; when the caller gives a square
`R` and a `d` whose length is that column count, `dim()` is the length of `d` and `R` is
square of side `dim()`. -/
theorem dim_of_constructors (key : Key) (d : Vector) (R : Matrix) (name1 : Key) (S : Matrix)
    (name2 : Key) (T : Matrix) (parents : Parents) (precisions : Vector) :
    ∀ a ∈ [ConditionalGaussian.mk0 key d R precisions,
           ConditionalGaussian.mk1 key d R name1 S precisions,
           ConditionalGaussian.mk2 key d R name1 S name2 T precisions,
           ConditionalGaussian.mkN key d R parents precisions],
      a.dim = R.size2 ∧ a.R_ = R ∧ a.d_ = d
      ∧ (R.size1 = R.size2 → d.length = R.size2 →
          a.dim = a.d_.length ∧ a.R_.size1 = a.dim) := by
  intro a ha
  simp only [List.mem_cons, List.mem_singleton, List.not_mem_nil, or_false] at ha
  rcases ha with rfl | rfl | rfl | rfl <;>
    exact ⟨rfl, rfl, rfl, fun hsq hd => ⟨hd.symm, hsq⟩⟩

/-- Witness of C11 (amended): the one-parent constructor given the 2×2 identity as `R` and
`d = [1,2,3]`, where `dim()` is 2, the column count of `R`, and not the length of `d`; and
the two-parent constructor given the 2×2 identity and `d = [5,5]`, where `dim()` is the
length of `d` and `R` is square of side `dim()`. -/
theorem dim_of_constructors_witness :
    (ConditionalGaussian.mk1 "x" [1, 2, 3] I2 "y" I2 [1, 1]).dim = I2.size2
    ∧ (ConditionalGaussian.mk1 "x" [1, 2, 3] I2 "y" I2 [1, 1]).dim
        ≠ (ConditionalGaussian.mk1 "x" [1, 2, 3] I2 "y" I2 [1, 1]).d_.length
    ∧ I2.size1 = I2.size2 ∧ ([5, 5] : Vector).length = I2.size2
    ∧ (ConditionalGaussian.mk2 "x" [5, 5] I2 "y" I2 "z" twoI2 [1, 1]).dim
        = (ConditionalGaussian.mk2 "x" [5, 5] I2 "y" I2 "z" twoI2 [1, 1]).d_.length
    ∧ (ConditionalGaussian.mk2 "x" [5, 5] I2 "y" I2 "z" twoI2 [1, 1]).R_.size1
        = (ConditionalGaussian.mk2 "x" [5, 5] I2 "y" I2 "z" twoI2 [1, 1]).dim :=
  ⟨(dim_of_constructors "x" [1, 2, 3] I2 "y" I2 "z" twoI2 Parents.empty [1, 1]
      (ConditionalGaussian.mk1 "x" [1, 2, 3] I2 "y" I2 [1, 1]) (by simp)).1,
   by decide, by decide, by decide,
   (dim_of_constructors "x" [5, 5] I2 "y" I2 "z" twoI2 Parents.empty [1, 1]
      (ConditionalGaussian.mk2 "x" [5, 5] I2 "y" I2 "z" twoI2 [1, 1]) (by simp)).2.2.2
      (by decide) (by decide)⟩

/-- C12: for every node and key `k`, `contains(k)` is 1 exactly when `k` occurs in
`parents()` and 0 exactly when it does not; and `contains(k)` is 1 after `add(k, M)` and
after construction with `k` as a parent name (one-parent constructor, either name of the
two-parent constructor, a key of the map given to the general constructor). -/
theorem contains_iff_mem_parents (a : ConditionalGaussian) (k : Key) :
    (a.contains k = 1 ↔ k ∈ a.parents)
    ∧ (a.contains k = 0 ↔ k ∉ a.parents)
    ∧ (∀ M, (a.add k M).contains k = 1)
    ∧ (∀ key d R S p, (ConditionalGaussian.mk1 key d R k S p).contains k = 1)
    ∧ (∀ key d R S n2 T p, (ConditionalGaussian.mk2 key d R k S n2 T p).contains k = 1)
    ∧ (∀ key d R n1 S T p, (ConditionalGaussian.mk2 key d R n1 S k T p).contains k = 1)
    ∧ (∀ key d R (m : Parents) p M, m.find k = some M →
        (ConditionalGaussian.mkN key d R m p).contains k = 1) := by
  refine ⟨?_, ?_, ?_, ?_, ?_, ?_, ?_⟩
  · simp only [ConditionalGaussian.contains, ConditionalGaussian.parents, Parents.count_eq]
    split_ifs with h <;> simp [h]
  · simp only [ConditionalGaussian.contains, ConditionalGaussian.parents, Parents.count_eq]
    split_ifs with h <;> simp [h]
  · intro M
    exact Parents.count_insert _ k M
  · intro key d R S p
    exact Parents.count_insert _ k S
  · intro key d R S n2 T p
    simp only [ConditionalGaussian.contains, ConditionalGaussian.mk2, Parents.count_eq]
    rw [if_pos]
    rw [mem_keys_insert, mem_keys_insert]
    exact Or.inr (Or.inl rfl)
  · intro key d R n1 S T p
    exact Parents.count_insert _ k T
  · intro key d R m p M hM
    simp only [ConditionalGaussian.contains, ConditionalGaussian.mkN, Parents.count_eq]
    rw [if_pos]
    exact (mem_keys_iff_find m k).mpr ⟨M, hM⟩

/-- C13: after `add(k, M1)` a further `add(k, M2)` leaves `nrParents()` unchanged; a
single `add(k, M)` leaves `nrParents()` unchanged when `k` already was a parent and
raises it by exactly 1 when it was not. -/
theorem nrParents_add (a : ConditionalGaussian) (k : Key) (M1 M2 : Matrix) :
    ((a.add k M1).add k M2).nrParents = (a.add k M1).nrParents
    ∧ (a.add k M1).nrParents = if k ∈ a.parents then a.nrParents else a.nrParents + 1 := by
  constructor
  · simp only [ConditionalGaussian.nrParents, ConditionalGaussian.add, Parents.size_insert]
    rw [if_pos]
    rw [mem_keys_insert]
    exact Or.inl rfl
  · simp only [ConditionalGaussian.nrParents, ConditionalGaussian.add, Parents.size_insert,
      ConditionalGaussian.parents]

/-- C14: the one-parent constructor yields the node of the no-parent constructor followed
by `add(n1, S)`, the two-parent constructor the node of the no-parent constructor followed
by `add(n1, S)` then `add(n2, T)`, and each of the three yields the node of the
arbitrary-parents constructor given the resulting parent map. -/
theorem constructors_normalise (key : Key) (d : Vector) (R : Matrix) (n1 : Key) (S : Matrix)
    (n2 : Key) (T : Matrix) (p : Vector) :
    ConditionalGaussian.mk1 key d R n1 S p = (ConditionalGaussian.mk0 key d R p).add n1 S
    ∧ ConditionalGaussian.mk2 key d R n1 S n2 T p
        = ((ConditionalGaussian.mk0 key d R p).add n1 S).add n2 T
    ∧ ConditionalGaussian.mk0 key d R p = ConditionalGaussian.mkN key d R Parents.empty p
    ∧ ConditionalGaussian.mk1 key d R n1 S p
        = ConditionalGaussian.mkN key d R (Parents.empty.insert n1 S) p
    ∧ ConditionalGaussian.mk2 key d R n1 S n2 T p
        = ConditionalGaussian.mkN key d R ((Parents.empty.insert n1 S).insert n2 T) p :=
  ⟨rfl, rfl, rfl, rfl, rfl⟩

/-- C15: for every node and every assignment holding all parent keys, the loop of `solve`
run over the parent entries in any permutation `l` of the map order gives the same
right-hand side as the map-order loop, and `solve` is back-substitution on it. -/
theorem solve_order_irrelevant (a : ConditionalGaussian) (x : VectorConfig)
    (l : List (Key × Matrix)) (hperm : l.Perm a.parents_.entries)
    (hx : ∀ k ∈ a.parents, x k ≠ none) :
    ConditionalGaussian.solveLoop x l a.d_
      = ConditionalGaussian.solveLoop x a.parents_.entries a.d_
    ∧ ∃ rhs, ConditionalGaussian.solveLoop x l a.d_ = .ok rhs
        ∧ a.solve x = backsubstitution a.R_ rhs := by
  have h1 := solveLoop_perm x hperm a.d_
  refine ⟨h1, ?_⟩
  have hall : ∀ p ∈ a.parents_.entries, x p.1 ≠ none :=
    fun p hp => hx p.1 (List.mem_map_of_mem _ hp)
  obtain ⟨rhs, hr⟩ := solveLoop_ok x a.parents_.entries a.d_ hall
  exact ⟨rhs, h1.trans hr, by simp only [ConditionalGaussian.solve, hr]⟩

/-- Witness of C15: a node with the parents `y` and `z`, visited in the reverse of the map
order. -/
theorem solve_order_irrelevant_witness :
    ConditionalGaussian.solveLoop (fun _ => some [1, 2])
        (ConditionalGaussian.mk2 "x" [5, 5] I2 "y" I2 "z" twoI2 [1, 1]).parents_.entries.reverse
        [5, 5]
      = ConditionalGaussian.solveLoop (fun _ => some [1, 2])
        (ConditionalGaussian.mk2 "x" [5, 5] I2 "y" I2 "z" twoI2 [1, 1]).parents_.entries [5, 5]
    ∧ ∃ rhs, ConditionalGaussian.solveLoop (fun _ => some [1, 2])
        (ConditionalGaussian.mk2 "x" [5, 5] I2 "y" I2 "z" twoI2 [1, 1]).parents_.entries.reverse
        [5, 5] = .ok rhs
        ∧ (ConditionalGaussian.mk2 "x" [5, 5] I2 "y" I2 "z" twoI2 [1, 1]).solve
            (fun _ => some [1, 2]) = backsubstitution I2 rhs :=
  solve_order_irrelevant (ConditionalGaussian.mk2 "x" [5, 5] I2 "y" I2 "z" twoI2 [1, 1])
    (fun _ => some [1, 2]) _ (List.reverse_perm _) (fun _ _ => by simp)

/-- C16: after `add(k, M)` the key, `R`, `d` and `precisions` of the node are unchanged,
and for every key `j ≠ k` the matrix stored for `j` and the presence of `j` among the
parents are unchanged. -/
theorem add_frame (a : ConditionalGaussian) (k : Key) (M : Matrix) (j : Key) (hjk : j ≠ k) :
    (a.add k M).key_ = a.key_ ∧ (a.add k M).R_ = a.R_ ∧ (a.add k M).d_ = a.d_
    ∧ (a.add k M).precisions_ = a.precisions_
    ∧ (a.add k M).parents_.find j = a.parents_.find j
    ∧ (a.add k M).contains j = a.contains j
    ∧ (j ∈ (a.add k M).parents ↔ j ∈ a.parents) := by
  have hmem : j ∈ (a.add k M).parents ↔ j ∈ a.parents := by
    simp only [ConditionalGaussian.parents, ConditionalGaussian.add, mem_keys_insert]
    constructor
    · rintro (h | h)
      · exact absurd h hjk
      · exact h
    · exact Or.inr
  refine ⟨rfl, rfl, rfl, rfl, ?_, ?_, hmem⟩
  · simp only [ConditionalGaussian.add, Parents.find_insert, if_neg hjk]
  · simp only [ConditionalGaussian.parents] at hmem
    simp only [ConditionalGaussian.contains, Parents.count_eq, hmem]

/-- Witness of C16: `add("k", [[2]])` on a node with the parent `j`. -/
theorem add_frame_witness :
    ((ConditionalGaussian.mk1 "x" [1] (scalarMatrix 1) "j" (scalarMatrix 3) [1]).add "k"
        (scalarMatrix 2)).parents_.find "j" = some (scalarMatrix 3)
    ∧ ((ConditionalGaussian.mk1 "x" [1] (scalarMatrix 1) "j" (scalarMatrix 3) [1]).add "k"
        (scalarMatrix 2)).contains "j" = 1 :=
  ⟨((add_frame (ConditionalGaussian.mk1 "x" [1] (scalarMatrix 1) "j" (scalarMatrix 3) [1]) "k"
      (scalarMatrix 2) "j" (by decide)).2.2.2.2.1).trans (by decide!),
   ((add_frame (ConditionalGaussian.mk1 "x" [1] (scalarMatrix 1) "j" (scalarMatrix 3) [1]) "k"
      (scalarMatrix 2) "j" (by decide)).2.2.2.2.2.1).trans (by decide!)⟩

/-- C17: for every node and all assignments `x` and `y` that hold the same value for
every parent key of the node, `solve(x)` and `solve(y)` return the same result. -/
theorem solve_reads_only_parents (a : ConditionalGaussian) (x y : VectorConfig)
    (h : ∀ k ∈ a.parents, x k = y k) : a.solve x = a.solve y := by
  have hl := solveLoop_congr x y a.parents_.entries
    (fun p hp => h p.1 (List.mem_map_of_mem _ hp)) a.d_
  simp only [ConditionalGaussian.solve, hl]

/-- Witness of C17: a node with the one parent `y`, solved against `{y: [1,1]}` and
against an assignment that holds `[1,1]` for `y` and `[7]` for every other key. -/
theorem solve_reads_only_parents_witness :
    (ConditionalGaussian.mk1 "x" [5, 5] I2 "y" I2 [1, 1]).solve (VectorConfig.single "y" [1, 1])
      = (ConditionalGaussian.mk1 "x" [5, 5] I2 "y" I2 [1, 1]).solve
          (fun k => if k = "y" then some [1, 1] else some [7])
    ∧ VectorConfig.single "y" [1, 1] "z" ≠ (if "z" = "y" then some [1, 1] else some [7]) :=
  ⟨solve_reads_only_parents (ConditionalGaussian.mk1 "x" [5, 5] I2 "y" I2 [1, 1])
    (VectorConfig.single "y" [1, 1]) (fun k => if k = "y" then some [1, 1] else some [7])
    (by decide!), by decide!⟩

/-- C18 (failing input): `a` has the one parent key `a␀b`, `b` has the one parent key
`a`, everything else equal. `a.equals(b, 0)` is true, yet `parents()` differs and, against
the assignment `{a: [1]}`, `a.solve` fails with the missing-value error while `b.solve`
returns `[0]`. -/
theorem equals_zero_not_interchangeable_on_nul_key :
    nulNode.equals
      (.gaussian (ConditionalGaussian.mk1 "x" [1] (scalarMatrix 1) "a" (scalarMatrix 1) [1])) 0
      = true
    ∧ nulNode.parents
      ≠ (ConditionalGaussian.mk1 "x" [1] (scalarMatrix 1) "a" (scalarMatrix 1) [1]).parents
    ∧ nulNode.solve (VectorConfig.single "a" [1]) = .error .missingParentValue
    ∧ (ConditionalGaussian.mk1 "x" [1] (scalarMatrix 1) "a" (scalarMatrix 1) [1]).solve
        (VectorConfig.single "a" [1]) = .ok [0] := by
  decide!

/-- C19: for all nodes `a` and `b` and all tolerances `t1 ≤ t2`, if `a.equals(b, t1)` is
true then `a.equals(b, t2)` is true. -/
theorem equals_mono (a b : ConditionalGaussian) (t1 t2 : ℚ) (ht : t1 ≤ t2)
    (h : a.equals (.gaussian b) t1 = true) : a.equals (.gaussian b) t2 = true := by
  rw [equals_gaussian_iff] at h ⊢
  obtain ⟨h1, h2, h3, h4, h5, h6⟩ := h
  refine ⟨h1, h2, matrix_equal_mono _ _ t1 t2 ht h3, vector_equal_mono _ t1 t2 ht _ h4,
    vector_equal_mono _ t1 t2 ht _ h5, ?_⟩
  rw [equalsLoop_iff] at h6 ⊢
  intro it hit
  obtain ⟨m2, hm2, he⟩ := h6 it hit
  exact ⟨m2, hm2, matrix_equal_mono _ _ t1 t2 ht he⟩

/-- Witness of C19: two nodes whose `R` differ by `1/2`, at the tolerances `1/2 ≤ 1`. -/
theorem equals_mono_witness :
    (ConditionalGaussian.mk1 "x" [1] (scalarMatrix 1) "y" (scalarMatrix 1) [1]).equals
      (.gaussian (ConditionalGaussian.mk1 "x" [1] (scalarMatrix (3 / 2)) "y" (scalarMatrix 1)
        [1])) (1 / 2) = true
    ∧ (ConditionalGaussian.mk1 "x" [1] (scalarMatrix 1) "y" (scalarMatrix 1) [1]).equals
      (.gaussian (ConditionalGaussian.mk1 "x" [1] (scalarMatrix (3 / 2)) "y" (scalarMatrix 1)
        [1])) 1 = true :=
  ⟨by decide!,
   equals_mono (ConditionalGaussian.mk1 "x" [1] (scalarMatrix 1) "y" (scalarMatrix 1) [1])
    (ConditionalGaussian.mk1 "x" [1] (scalarMatrix (3 / 2)) "y" (scalarMatrix 1) [1])
    (1 / 2) 1 (by decide!) (by decide!)⟩

/-- C20: for every node (each is the result of a constructor) followed by any sequence of
`add` calls, `parents()` lists the parent keys in strictly ascending key order, with no
key repeated, and the length of that list is `nrParents()`. -/
theorem parents_strictly_ascending (a : ConditionalGaussian) (adds : List (Key × Matrix)) :
    (a.addAll adds).parents.Pairwise (fun j k => j < k)
    ∧ (a.addAll adds).parents.Nodup
    ∧ (a.addAll adds).parents.length = (a.addAll adds).nrParents := by
  refine ⟨?_, keys_nodup _, ?_⟩
  · rw [ConditionalGaussian.parents, List.pairwise_map]
    exact (a.addAll adds).parents_.sorted
  · simp [ConditionalGaussian.parents, ConditionalGaussian.nrParents, Parents.size]

end gtsam
